import Mathlib

/-!
# MiniCoin consensus / ledger core: a shallow embedding

This development embeds the consensus and synchronization core of the
MiniCoin node (`minicoin.py`) in Lean and proves the behavioural claims
about it.

Modelling conventions:
* Python strings are modelled as `List Char` (`PStr`); Python's
  `str.split(sep)` for a non-empty separator is modelled by `pySplit`,
  a left-to-right first-match scanner.
* The SHA3-256 digest (`HashFunctions.hash_input`) is abstracted as a
  parameter `H : PStr → PStr` applied to the canonical string form of a
  block: every claimed property is generic in the digest function.
* The nonce is a Python float; floating point is not shallowly embedded,
  so the nonce value type is a parameter `ν` together with its string
  form `showN : ν → PStr` (Python `str`) and parser
  `parseN : PStr → Option ν` (Python `float`, `none` = `ValueError`).
* Fallible Python code (exceptions) is modelled with `Option` / `Except
  PyExc`; `PyExc.noNonce` is the custom `NoNonceException`.
* Python non-negative `int` printing/parsing (`str` / `int`) is modelled
  by `natToPStr` / `strToNat?` (decimal digits; the model restricts
  `int()` to plain digit strings, which is all the node ever feeds it).
-/

/-- Python strings, modelled as their list of code points. -/
abbrev PStr := List Char

/-- The ledger sentinel token `"LEDGER:"`. -/
def sLEDGER : PStr := "LEDGER:".data

/-- The block sentinel token `"BLOCK:"`. -/
def sBLOCK : PStr := "BLOCK:".data

/-- The transaction field separator `", "`. -/
def sComma : PStr := ", ".data

/-- The newline separator used inside a block's canonical form. -/
def sNL : PStr := "\n".data

/-- `hasSub sep s` holds iff `sep` occurs as a contiguous substring of `s`
(Python `sep in s`). -/
def hasSub (sep : PStr) : PStr → Bool
  | [] => decide (sep = [])
  | c :: cs => sep.isPrefixOf (c :: cs) || hasSub sep cs

/-- Fueled scanner behind `pySplit`: `cur` is the (reversed) chunk read so
far.  At each position the separator is tried; on a match the chunk is
emitted and the separator skipped, otherwise one character is consumed.
This is exactly Python's left-to-right, first-match, non-overlapping
`str.split(sep)` for non-empty `sep`. -/
def splitAux (sep : PStr) : Nat → PStr → PStr → List PStr
  | _, cur, [] => [cur.reverse]
  | 0, cur, c :: cs => [cur.reverse ++ c :: cs]
  | fuel + 1, cur, c :: cs =>
    if sep.isPrefixOf (c :: cs) then
      cur.reverse :: splitAux sep fuel [] ((c :: cs).drop sep.length)
    else
      splitAux sep fuel (c :: cur) cs

/-- Python `s.split(sep)` for a non-empty separator `sep`. -/
def pySplit (sep s : PStr) : List PStr := splitAux sep s.length [] s

/-- Interleave a separator between parts (the shape every serialized
ledger/block/transaction has). -/
def icalate (sep : PStr) : List PStr → PStr
  | [] => []
  | [p] => p
  | p :: q :: ps => p ++ sep ++ icalate sep (q :: ps)

/-- A separator is border-free when no proper nonempty suffix of it is
also a prefix of it; such separators admit no occurrence straddling a
part/separator boundary. -/
def borderFree (sep : PStr) : Prop :=
  ∀ k, k < sep.length → 0 < k → sep.drop k ≠ sep.take (sep.length - k)

/-- Little-endian decimal digits of `n` (with fuel, so that the kernel
can evaluate it). -/
def digitsRevAux : Nat → Nat → List Nat
  | 0, _ => []
  | fuel + 1, n => if n = 0 then [] else n % 10 :: digitsRevAux fuel (n / 10)

/-- Model of Python `str` on a non-negative `int`: its decimal digits. -/
def natToPStr (n : Nat) : PStr :=
  if n = 0 then ['0']
  else ((digitsRevAux n n).reverse.map fun d => Char.ofNat (48 + d))

/-- Model of Python `int` on a plain digit string (`none` models
`ValueError` on anything else). -/
def strToNat? (s : PStr) : Option Nat :=
  if s ≠ [] ∧ s.all Char.isDigit then
    some (s.foldl (fun a c => 10 * a + (c.toNat - 48)) 0)
  else none

/-- A MiniCoin transaction (`Transaction` in `minicoin.py`): an id/data
pair of strings; equality is field-wise (`Transaction.__eq__`). -/
structure Transaction where
  tx_id : PStr
  tx_data : PStr
deriving DecidableEq, Repr

/-- `Transaction.__str__`: `"<id>, <data>"`. -/
def txStr (t : Transaction) : PStr := t.tx_id ++ sComma ++ t.tx_data

/-- `Transaction.transaction_from_string`: split on `", "` and take the
first two fields (`none` models the `IndexError` when there is no
separator; any extra fields are silently dropped, as in the source). -/
def transaction_from_string (s : PStr) : Option Transaction :=
  match pySplit sComma s with
  | a :: b :: _ => some ⟨a, b⟩
  | _ => none

/-- A MiniCoin block (`Block` in `minicoin.py`).  `previous_block_hash`
is `Option` because Python lets it be `None` (a fresh mining candidate on
a hashless head); `nonce`/`block_hash` are `None` until mined.  The nonce
value type `ν` abstracts the Python float. -/
structure Block (ν : Type) where
  block_id : Nat
  previous_block_hash : Option PStr
  tx : List Transaction
  nonce : Option ν
  block_hash : Option PStr
deriving DecidableEq, Repr

/-- Python `str` applied to an optional string field (`str(None)` is
`"None"`). -/
def pyStrOpt : Option PStr → PStr
  | none => "None".data
  | some s => s

/-- The canonical string of a block that carries the nonce `n`
(`Block.__str__` after the nonce check): newline-separated id, nonce,
previous hash, then one `"id, data"` line per transaction. -/
def blockStrWith {ν : Type} (showN : ν → PStr) (id : Nat)
    (prev : Option PStr) (tx : List Transaction) (n : ν) : PStr :=
  natToPStr id ++ sNL ++ showN n ++ sNL ++ pyStrOpt prev
    ++ (tx.map fun t => sNL ++ txStr t).flatten

/-- `Block.__str__`: `none` models the `NoNonceException` raised when the
nonce is absent. -/
def blockStr? {ν : Type} (showN : ν → PStr) (b : Block ν) : Option PStr :=
  b.nonce.map (blockStrWith showN b.block_id b.previous_block_hash b.tx)

/-- `Block.__init__`: stores the fields and, when a nonce is present,
also the digest of the canonical string (`HashFunctions.hash_input`,
abstracted as `H`). -/
def Block.init {ν : Type} (H : PStr → PStr) (showN : ν → PStr) (id : Nat)
    (tx : List Transaction) (prev : Option PStr) (nonce : Option ν) : Block ν :=
  { block_id := id, previous_block_hash := prev, tx := tx, nonce := nonce,
    block_hash := nonce.map fun n => H (blockStrWith showN id prev tx n) }

/-- `Block.block_from_string`: split on newlines; line 0 is the id
(`int(...)`), line 1 the nonce (`float(...)`), line 2 the previous hash,
every further line a transaction.  `none` models any of the possible
`IndexError`/`ValueError`s. -/
def block_from_string {ν : Type} (H : PStr → PStr) (showN : ν → PStr)
    (parseN : PStr → Option ν) (s : PStr) : Option (Block ν) :=
  match pySplit sNL s with
  | idS :: nonS :: prevS :: rest => do
    let txs ← rest.mapM transaction_from_string
    let id ← strToNat? idS
    let n ← parseN nonS
    pure (Block.init H showN id txs (some prevS) (some n))
  | _ => none

/-- `Ledger.__str__`: `"LEDGER:"`, then `"BLOCK:" ++ str(block)` for each
block, then the trailing `"BLOCK:LEDGER:"`.  `none` models the
`NoNonceException` raised by any nonce-less block. -/
def ledgerStr? {ν : Type} (showN : ν → PStr) (chain : List (Block ν)) : Option PStr :=
  (chain.mapM (blockStr? showN)).map fun ss =>
    sLEDGER ++ (ss.map fun s => sBLOCK ++ s).flatten ++ sBLOCK ++ sLEDGER

/-- `Ledger.ledger_from_string`: split on `"BLOCK:"`; if the first and
last chunks are `"LEDGER:"`, parse every middle chunk as a block,
otherwise return the empty list.  `none` models a parse exception from
`Block.block_from_string`. -/
def ledger_from_string {ν : Type} (H : PStr → PStr) (showN : ν → PStr)
    (parseN : PStr → Option ν) (s : PStr) : Option (List (Block ν)) :=
  let arr := pySplit sBLOCK s
  if arr.head? = some sLEDGER ∧ arr.getLast? = some sLEDGER then
    ((arr.drop 1).dropLast).mapM (block_from_string H showN parseN)
  else some []

/-- `Ledger.add_block`: append iff the block's id equals the current
length; no other check. -/
def add_block {ν : Type} (chain : List (Block ν)) (b : Block ν) : List (Block ν) :=
  if b.block_id = chain.length then chain ++ [b] else chain

/-- `Ledger.replace_blockchain`: swap wholesale iff the candidate is
strictly longer. -/
def replace_blockchain {ν : Type} (chain cand : List (Block ν)) : List (Block ν) :=
  if cand.length > chain.length then cand else chain

/-- `Ledger.__init__`.  Modelled from the spec: `genesis_block.py`
(the `GenesisBlock` constants) is not among the sources; per the spec the
genesis block is `{id: 0, prev: "0", tx: [("g", "genesis")], nonce:
fixed}`, the fixed nonce being the parameter `gn`. -/
def initLedger {ν : Type} (H : PStr → PStr) (showN : ν → PStr) (gn : ν) : List (Block ν) :=
  [Block.init H showN 0 [⟨"g".data, "genesis".data⟩] (some "0".data) (some gn)]

/-- `MemPool.add_tx` on a list argument: walk the list, appending each
transaction not already present (membership by `Transaction.__eq__`,
checked against the growing pool) and recording whether anything was
new. -/
def add_tx (pool : List Transaction) (txs : List Transaction) :
    List Transaction × Bool :=
  txs.foldl (fun acc t => if t ∈ acc.1 then acc else (acc.1 ++ [t], true))
    (pool, false)

/-- The Python exceptions the embedded fragment can raise.
`valueError` also stands for the other parse-time exceptions that
`ledger_from_string` can surface during `sync_ledger`. -/
inductive PyExc
  | noNonce
  | indexError
  | valueError
deriving DecidableEq, Repr

/-- `MiniCoin.HASH_PATTERN`, the proof-of-work target prefix. -/
def HASH_PATTERN : PStr := "00ff00".data

/-- `MiniCoin.validate_block`.  The initial `print(str(block))` raises
`NoNonceException` on a nonce-less block before anything is checked;
`get_last_block` raises `IndexError` on an empty chain; otherwise the
conjunction of the five conditions is returned. -/
def validate_block {ν : Type} [DecidableEq ν] (H : PStr → PStr)
    (showN : ν → PStr) (chain : List (Block ν)) (b : Block ν) : Except PyExc Bool :=
  match blockStr? showN b with
  | none => .error .noNonce
  | some s =>
    match chain.getLast? with
    | none => .error .indexError
    | some head =>
      .ok (decide (chain.length ≥ 1)
        && decide (b.block_id = head.block_id + 1)
        && decide (b.previous_block_hash = head.block_hash)
        && decide (some (H s) = b.block_hash)
        && decide ((b.block_hash.getD []).take HASH_PATTERN.length = HASH_PATTERN))

/-- The block a successful pass of `MiniCoin.__threaded_miner` announces:
the candidate built at `ledger.size()` on the current head, with the
winning nonce written in and its digest stored as `block_hash`.  `none`
models the `IndexError` of `get_last_block` on an empty chain. -/
def minedBlock {ν : Type} (H : PStr → PStr) (showN : ν → PStr)
    (chain : List (Block ν)) (txs : List Transaction) (n : ν) : Option (Block ν) :=
  chain.getLast?.map fun head =>
    { block_id := chain.length, previous_block_hash := head.block_hash,
      tx := txs, nonce := some n,
      block_hash := some (H (blockStrWith showN chain.length head.block_hash txs n)) }

/-- The response string that marks a failed outbound call. -/
def sCONNERR : PStr := "CONNECTION ERROR".data

/-- One iteration of the peer-selection loop of `MiniCoin.sync_ledger`:
the accumulator holds the best length seen (`int(longest_chain[0])`), the
split response of the current best (`longest_chain`) and the selected
peer's address (`address`); a non-empty, non-error response whose first
`":"`-field parses to a strictly larger integer replaces the best
(`>` keeps the first-seen peer on ties).  An unparseable length is the
`ValueError` of `int(...)`. -/
def syncStep (acc : Nat × List PStr × Option PStr) (p : PStr × PStr) :
    Except PyExc (Nat × List PStr × Option PStr) :=
  if p.2 = [] then .ok acc
  else
    let result := pySplit [':'] p.2
    if result.headD [] = sCONNERR then .ok acc
    else
      match strToNat? (result.headD []) with
      | none => .error .valueError
      | some len => if len > acc.1 then .ok (len, result, some p.1) else .ok acc

/-- The whole selection loop of `MiniCoin.sync_ledger` over the settled
peer responses, starting from `longest_chain = [0]`, `address = None`.
Each response pair is `(peer address, future.result()[0])`. -/
def syncSelect (responses : List (PStr × PStr)) :
    Except PyExc (Nat × List PStr × Option PStr) :=
  responses.foldlM syncStep (0, [['0']], none)

/-- `MiniCoin.sync_ledger` as a function of the settled peer responses:
after the selection loop, read the local genesis (an `IndexError` on an
empty chain), and if the best reported length strictly exceeds the local
size *and* the winner's reported genesis hash (`longest_chain[2]`) equals
the local genesis hash, fetch that single peer's serialized ledger
(`sendLedger`), parse it and hand it to `replace_blockchain`; in every
other case the chain is untouched. -/
def sync_ledger {ν : Type} (H : PStr → PStr) (showN : ν → PStr)
    (parseN : PStr → Option ν) (responses : List (PStr × PStr))
    (sendLedger : PStr → PStr) (chain : List (Block ν)) :
    Except PyExc (List (Block ν)) := do
  let sel ← syncSelect responses
  match chain.head? with
  | none => .error .indexError
  | some g =>
    if chain.length < sel.1 then
      match sel.2.1.get? 2 with
      | none => .error .indexError
      | some repGen =>
        if some repGen = g.block_hash then
          match sel.2.2 with
          | none => .error .indexError
          | some a =>
            match ledger_from_string H showN parseN (sendLedger a) with
            | none => .error .valueError
            | some newChain => .ok (replace_blockchain chain newChain)
        else .ok chain
    else .ok chain

/-- `ledger[i].block_id == i`, phrased recursively from offset `k`. -/
def idsFrom {ν : Type} : Nat → List (Block ν) → Bool
  | _, [] => true
  | k, b :: bs => decide (b.block_id = k) && idsFrom (k + 1) bs

/-- For `i > 0`, `ledger[i].previous_block_hash == ledger[i-1].block_hash`. -/
def linksOk {ν : Type} [DecidableEq ν] : List (Block ν) → Bool
  | [] => true
  | [_] => true
  | a :: b :: rest =>
    decide (b.previous_block_hash = a.block_hash) && linksOk (b :: rest)

/-- The two structural ledger invariants of the spec. -/
def chainInv {ν : Type} [DecidableEq ν] (chain : List (Block ν)) : Bool :=
  idsFrom 0 chain && linksOk chain

instance {ε α : Type} [DecidableEq ε] [DecidableEq α] : DecidableEq (Except ε α) := fun a b =>
  match a, b with
  | .error e, .error f => decidable_of_iff (e = f) (by simp)
  | .ok x, .ok y => decidable_of_iff (x = y) (by simp)
  | .error _, .ok _ => isFalse (by simp)
  | .ok _, .error _ => isFalse (by simp)

/-! ## Substring and split lemmas -/

theorem hasSub_of_prefix_drop {sep p : PStr} {i : Nat}
    (h : sep <+: p.drop i) : hasSub sep p = true := by
  induction p generalizing i with
  | nil =>
    simp only [List.drop_nil, List.prefix_nil] at h
    simp [hasSub, h]
  | cons c cs ih =>
    cases i with
    | zero =>
      simp only [List.drop_zero] at h
      simp [hasSub, List.isPrefixOf_iff_prefix, h]
    | succ j =>
      simp only [List.drop_succ_cons] at h
      simp [hasSub, ih h]

theorem mem_of_hasSub {sep p : PStr} {c : Char}
    (h : hasSub sep p = true) (hc : c ∈ sep) : c ∈ p := by
  induction p with
  | nil =>
    simp only [hasSub, decide_eq_true_eq] at h
    subst h; cases hc
  | cons d ds ih =>
    simp only [hasSub, Bool.or_eq_true, List.isPrefixOf_iff_prefix] at h
    rcases h with h | h
    · exact h.subset hc
    · exact List.mem_cons_of_mem d (ih h)

theorem no_prefix_at {sep p : PStr} (rest : PStr)
    (hp : hasSub sep p = false) (hb : borderFree sep)
    {i : Nat} (hi : i < p.length) :
    ¬ sep <+: (p ++ (sep ++ rest)).drop i := by
  intro h
  rw [List.drop_append_eq_append_drop, Nat.sub_eq_zero_of_le (Nat.le_of_lt hi),
    List.drop_zero] at h
  set u := p.drop i with hu
  have hk : u.length = p.length - i := by simp [hu]
  have hk1 : 0 < u.length := by omega
  by_cases hcase : sep.length ≤ u.length
  · have : sep <+: u := by
      have he := List.prefix_iff_eq_take.mp h
      rw [List.take_append_eq_append_take, Nat.sub_eq_zero_of_le hcase,
        List.take_zero, List.append_nil] at he
      rw [he]
      exact List.take_prefix _ _
    rw [hasSub_of_prefix_drop this] at hp
    cases hp
  · push_neg at hcase
    have he := List.prefix_iff_eq_take.mp h
    rw [List.take_append_eq_append_take] at he
    have hu_take : u.take sep.length = u := List.take_of_length_le (Nat.le_of_lt hcase)
    rw [hu_take] at he
    have h0 : sep.length - u.length - sep.length = 0 := by omega
    rw [List.take_append_eq_append_take, h0, List.take_zero, List.append_nil] at he
    have hdrop : sep.drop u.length = sep.take (sep.length - u.length) := by
      conv_lhs => rw [he]
      rw [List.drop_append_eq_append_drop, List.drop_length, Nat.sub_self,
        List.drop_zero, List.nil_append]
    exact hb u.length hcase hk1 hdrop

theorem splitAux_nil (sep : PStr) (fuel : Nat) (cur : PStr) :
    splitAux sep fuel cur [] = [cur.reverse] := by
  cases fuel <;> rfl

theorem splitAux_cleanPrefix (sep : PStr) :
    ∀ (p : PStr) (cur rest : PStr) (fuel : Nat),
      (p ++ rest).length ≤ fuel →
      (∀ i < p.length, ¬ sep <+: ((p ++ rest).drop i)) →
      splitAux sep fuel cur (p ++ rest)
        = splitAux sep (fuel - p.length) (p.reverse ++ cur) rest := by
  intro p
  induction p with
  | nil => intro cur rest fuel _ _; simp
  | cons c p' ih =>
    intro cur rest fuel hfuel hclean
    cases fuel with
    | zero => simp at hfuel
    | succ f =>
      have hnp : ¬ sep.isPrefixOf (c :: (p' ++ rest)) = true := by
        rw [List.isPrefixOf_iff_prefix]
        have := hclean 0 (by simp)
        simpa using this
      show splitAux sep (f + 1) cur (c :: (p' ++ rest)) = _
      rw [splitAux, if_neg hnp]
      have hstep := ih (c :: cur) rest f (by simpa using Nat.lt_succ_iff.mp hfuel)
        (fun i hi => by
          have := hclean (i + 1) (by simpa using Nat.succ_lt_succ hi)
          simpa using this)
      rw [hstep]
      simp [List.reverse_cons, List.append_assoc]

theorem splitAux_consume (sep : PStr) (hsep : sep ≠ []) (t cur : PStr) (f : Nat) :
    splitAux sep (f + 1) cur (sep ++ t) = cur.reverse :: splitAux sep f [] t := by
  cases sep with
  | nil => cases hsep rfl
  | cons a as =>
    show splitAux (a :: as) (f + 1) cur (a :: (as ++ t)) = _
    rw [splitAux, if_pos]
    · have : ((a :: as) ++ t).drop (a :: as).length = t := List.drop_left _ _
      simp only [List.cons_append] at this
      rw [this]
    · rw [List.isPrefixOf_iff_prefix]
      exact List.prefix_append _ _

theorem splitAux_noSub (sep : PStr) :
    ∀ (q cur : PStr) (fuel : Nat), hasSub sep q = false →
      splitAux sep fuel cur q = [cur.reverse ++ q] := by
  intro q
  induction q with
  | nil => intro cur fuel _; simp [splitAux_nil]
  | cons c cs ih =>
    intro cur fuel hq
    simp only [hasSub, Bool.or_eq_false_iff] at hq
    cases fuel with
    | zero => rfl
    | succ f =>
      rw [splitAux, if_neg (by simp [hq.1])]
      rw [ih (c :: cur) f hq.2]
      simp

theorem splitAux_icalate (sep : PStr) (hsep : sep ≠ []) (hb : borderFree sep) :
    ∀ (ps : List PStr) (p₀ : PStr) (rest : List PStr) (cur : PStr) (fuel : Nat),
      ps = p₀ :: rest →
      (∀ p ∈ ps, hasSub sep p = false) →
      (icalate sep ps).length ≤ fuel →
      splitAux sep fuel cur (icalate sep ps) = (cur.reverse ++ p₀) :: rest := by
  intro ps
  induction ps with
  | nil => intro p₀ rest cur fuel hps; cases hps
  | cons p ps' ih =>
    intro p₀ rest cur fuel hps hclean hfuel
    injection hps with h1 h2
    subst h1
    subst h2
    cases ps' with
    | nil =>
      show splitAux sep fuel cur p = [cur.reverse ++ p]
      exact splitAux_noSub sep p cur fuel (hclean p (by simp))
    | cons q ps'' =>
      show splitAux sep fuel cur (p ++ sep ++ icalate sep (q :: ps'')) = _
      rw [List.append_assoc]
      have hp0 : hasSub sep p = false := hclean p (by simp)
      have hlen : (p ++ (sep ++ icalate sep (q :: ps''))).length ≤ fuel := by
        have : icalate sep (p :: q :: ps'') = p ++ sep ++ icalate sep (q :: ps'') := rfl
        rw [this] at hfuel
        simpa [List.append_assoc] using hfuel
      rw [splitAux_cleanPrefix sep p cur (sep ++ icalate sep (q :: ps'')) fuel hlen
        (fun i hi => no_prefix_at (icalate sep (q :: ps'')) hp0 hb hi)]
      have hs1 : 1 ≤ sep.length := by
        cases sep with | nil => cases hsep rfl | cons a as => simp
      have hrem : 1 ≤ fuel - p.length := by
        have := hlen
        simp only [List.length_append] at this
        omega
      obtain ⟨g, hg⟩ : ∃ g, fuel - p.length = g + 1 := ⟨fuel - p.length - 1, by omega⟩
      rw [hg, splitAux_consume sep hsep _ _ g]
      rw [ih q ps'' [] g rfl (fun r hr => hclean r (by simp [hr]))
        (by
          have := hlen
          simp only [List.length_append] at this ⊢
          omega)]
      simp

theorem pySplit_icalate (sep : PStr) (hsep : sep ≠ []) (hb : borderFree sep)
    (p₀ : PStr) (rest : List PStr)
    (hclean : ∀ p ∈ p₀ :: rest, hasSub sep p = false) :
    pySplit sep (icalate sep (p₀ :: rest)) = p₀ :: rest := by
  have := splitAux_icalate sep hsep hb (p₀ :: rest) p₀ rest [] (icalate sep (p₀ :: rest)).length
    rfl hclean (Nat.le_refl _)
  simpa [pySplit] using this

/-! ## Decimal printing / parsing round trip -/

/-- Value of a little-endian digit list. -/
def ofRev : List Nat → Nat
  | [] => 0
  | d :: ds => d + 10 * ofRev ds

theorem digitsRevAux_zero (fuel : Nat) : digitsRevAux fuel 0 = [] := by
  cases fuel <;> simp [digitsRevAux]

theorem ofRev_digitsRevAux : ∀ (fuel n : Nat), 0 < n → n ≤ fuel →
    ofRev (digitsRevAux fuel n) = n := by
  intro fuel
  induction fuel with
  | zero => intro n h1 h2; omega
  | succ f ih =>
    intro n h1 h2
    rw [digitsRevAux, if_neg (by omega)]
    by_cases hq : n / 10 = 0
    · rw [hq, digitsRevAux_zero]
      show n % 10 + 10 * 0 = n
      omega
    · rw [ofRev, ih (n / 10) (by omega) (by omega)]
      omega

theorem digitsRevAux_lt : ∀ (fuel n d : Nat), d ∈ digitsRevAux fuel n → d < 10 := by
  intro fuel
  induction fuel with
  | zero => intro n d h; simp [digitsRevAux] at h
  | succ f ih =>
    intro n d h
    rw [digitsRevAux] at h
    by_cases hn : n = 0
    · simp [hn] at h
    · rw [if_neg hn] at h
      rcases List.mem_cons.mp h with h | h
      · omega
      · exact ih _ _ h

theorem digitsRevAux_ne_nil {fuel n : Nat} (h1 : 0 < n) (h2 : n ≤ fuel) :
    digitsRevAux fuel n ≠ [] := by
  cases fuel with
  | zero => omega
  | succ f => rw [digitsRevAux, if_neg (by omega)]; simp

theorem digitChar_isDigit {d : Nat} (hd : d < 10) :
    (Char.ofNat (48 + d)).isDigit = true := by
  interval_cases d <;> decide

theorem digitChar_toNat {d : Nat} (hd : d < 10) :
    (Char.ofNat (48 + d)).toNat = 48 + d := by
  interval_cases d <;> decide

theorem foldl_ext_mem {A B : Type} (f g : B → A → B) (l : List A) (b : B)
    (h : ∀ x ∈ l, ∀ a, f a x = g a x) : l.foldl f b = l.foldl g b := by
  induction l generalizing b with
  | nil => rfl
  | cons x xs ih =>
    simp only [List.foldl_cons]
    rw [h x (by simp)]
    exact ih _ fun y hy a => h y (by simp [hy]) a

theorem foldl_horner : ∀ (ds : List Nat) (a : Nat),
    List.foldl (fun a d => 10 * a + d) a ds.reverse = a * 10 ^ ds.length + ofRev ds := by
  intro ds
  induction ds with
  | nil => intro a; simp [ofRev]
  | cons d ds ih =>
    intro a
    rw [List.reverse_cons, List.foldl_append]
    simp only [List.foldl_cons, List.foldl_nil]
    rw [ih a, ofRev, List.length_cons, pow_succ]
    ring

theorem natToPStr_isDigit {n : Nat} : ∀ c ∈ natToPStr n, c.isDigit = true := by
  intro c hc
  unfold natToPStr at hc
  by_cases hn : n = 0
  · rw [if_pos hn] at hc
    simp only [List.mem_singleton] at hc
    subst hc; decide
  · rw [if_neg hn] at hc
    obtain ⟨d, hd, rfl⟩ := List.mem_map.mp (List.mem_reverse.mp (by simpa using hc))
    exact digitChar_isDigit (digitsRevAux_lt n n d hd)

/-- Python `int(str(n))` round trip for a non-negative integer. -/
theorem strToNat_natToPStr (n : Nat) : strToNat? (natToPStr n) = some n := by
  by_cases hn : n = 0
  · subst hn; decide
  · have hne : natToPStr n ≠ [] := by
      unfold natToPStr
      rw [if_neg hn]
      simpa using digitsRevAux_ne_nil (Nat.pos_of_ne_zero hn) (Nat.le_refl n)
    rw [strToNat?, if_pos ⟨hne, List.all_eq_true.mpr fun c hc => natToPStr_isDigit c hc⟩]
    congr 1
    unfold natToPStr
    rw [if_neg hn]
    rw [List.foldl_map]
    rw [foldl_ext_mem _ (fun (a d : Nat) => 10 * a + d) _ 0 (fun d hd a => by
      have hlt : d < 10 := digitsRevAux_lt n n d (List.mem_reverse.mp hd)
      rw [digitChar_toNat hlt]
      show 10 * a + (48 + d - 48) = 10 * a + d
      omega)]
    rw [foldl_horner]
    rw [ofRev_digitsRevAux n n (Nat.pos_of_ne_zero hn) (Nat.le_refl n)]
    simp

/-! ## Claim theorems -/

/-- C4: `Ledger.replace_blockchain` swaps the stored chain for the
candidate iff the candidate is strictly longer; whenever the candidate's
length is less than or equal, the stored chain is left exactly as it
was. -/
theorem C4_replace_iff_longer {ν : Type} (chain cand : List (Block ν)) :
    (chain.length < cand.length → replace_blockchain chain cand = cand) ∧
    (cand.length ≤ chain.length → replace_blockchain chain cand = chain) := by
  constructor
  · intro h
    simp [replace_blockchain, h]
  · intro h
    simp [replace_blockchain, Nat.not_lt_of_le h]

/-- Witness for C4 at a concrete one-block chain and an empty and a
two-block candidate. -/
theorem C4_witness :
    replace_blockchain [Block.init (fun s => s) (fun _ : Unit => "0.5".data) 0 [] (some "0".data) (some ())] [] =
      [Block.init (fun s => s) (fun _ : Unit => "0.5".data) 0 [] (some "0".data) (some ())] :=
  (C4_replace_iff_longer _ _).2 (by decide)

/-- C5: `Ledger.add_block` appends the block iff its `block_id` equals
the current chain length, and otherwise leaves the chain exactly
unchanged; no condition other than the id is consulted. -/
theorem C5_append_iff_id_matches {ν : Type} (chain : List (Block ν)) (b : Block ν) :
    (b.block_id = chain.length → add_block chain b = chain ++ [b]) ∧
    (b.block_id ≠ chain.length → add_block chain b = chain) := by
  constructor
  · intro h
    simp [add_block, h]
  · intro h
    simp [add_block, h]

/-- Witness for C5: a block with id 0 is appended to the empty chain; a
block with id 7 is silently rejected. -/
theorem C5_witness :
    add_block ([] : List (Block Unit)) ⟨0, none, [], none, none⟩ = [⟨0, none, [], none, none⟩] ∧
    add_block ([] : List (Block Unit)) ⟨7, none, [], none, none⟩ = [] :=
  ⟨(C5_append_iff_id_matches [] ⟨0, none, [], none, none⟩).1 (by decide),
   (C5_append_iff_id_matches [] ⟨7, none, [], none, none⟩).2 (by decide)⟩

/-- C8: computing a block's canonical string fails with the missing-nonce
error (`NoNonceException`, modelled as `none`) exactly when the nonce
is absent, and returns the canonical string when it is present. -/
theorem C8_blockStr_nonce {ν : Type} (showN : ν → PStr) (b : Block ν) :
    (b.nonce = none → blockStr? showN b = none) ∧
    (∀ n, b.nonce = some n →
      blockStr? showN b
        = some (blockStrWith showN b.block_id b.previous_block_hash b.tx n)) := by
  constructor
  · intro h
    simp [blockStr?, h]
  · intro n h
    simp [blockStr?, h]

/-- Witness for C8 on a nonce-less and a nonce-carrying concrete block. -/
theorem C8_witness :
    blockStr? (fun _ : Unit => "0.5".data) ⟨0, some "0".data, [], none, none⟩ = none ∧
    blockStr? (fun _ : Unit => "0.5".data) ⟨0, some "0".data, [], some (), none⟩
      = some "0\n0.5\n0".data :=
  ⟨(C8_blockStr_nonce _ _).1 rfl,
   by
    have := (C8_blockStr_nonce (fun _ : Unit => "0.5".data)
      ⟨0, some "0".data, [], some (), none⟩).2 () rfl
    rw [this]
    decide⟩

/-- C10: `validate_block` raises `NoNonceException` (from the
`print(str(block))` that precedes every check) exactly when the
candidate's nonce is `None`; with a nonce present that error is
unreachable. -/
theorem C10_validate_noNonce_iff {ν : Type} [DecidableEq ν] (H : PStr → PStr)
    (showN : ν → PStr) (chain : List (Block ν)) (b : Block ν) :
    validate_block H showN chain b = .error .noNonce ↔ b.nonce = none := by
  cases hb : b.nonce with
  | none =>
    simp [validate_block, blockStr?, hb]
  | some n =>
    simp only [validate_block, blockStr?, hb, Option.map_some]
    cases chain.getLast? <;> simp

/-- C1: for a candidate carrying a nonce, against a ledger with a last
block, `validate_block` returns `True` iff all five conditions hold
(length at least one; id is the successor of the head's id; previous
hash equals the head's hash; the recomputed digest of the canonical form
equals the stored `block_hash`; the stored hash starts with
`HASH_PATTERN`); and it returns `False` whenever the id is not the
successor or the recomputed digest differs from the stored hash,
regardless of the other conditions. -/
theorem C1_validate_iff {ν : Type} [DecidableEq ν] (H : PStr → PStr)
    (showN : ν → PStr) (chain : List (Block ν)) (b : Block ν) (n : ν)
    (head : Block ν) (hn : b.nonce = some n)
    (hh : chain.getLast? = some head) :
    (validate_block H showN chain b = .ok true ↔
      (1 ≤ chain.length ∧
       b.block_id = head.block_id + 1 ∧
       b.previous_block_hash = head.block_hash ∧
       b.block_hash = some (H (blockStrWith showN b.block_id b.previous_block_hash b.tx n)) ∧
       (b.block_hash.getD []).take HASH_PATTERN.length = HASH_PATTERN)) ∧
    ((b.block_id ≠ head.block_id + 1 ∨
      b.block_hash ≠ some (H (blockStrWith showN b.block_id b.previous_block_hash b.tx n))) →
      validate_block H showN chain b = .ok false) := by
  have hv : validate_block H showN chain b
      = .ok (decide (chain.length ≥ 1)
        && decide (b.block_id = head.block_id + 1)
        && decide (b.previous_block_hash = head.block_hash)
        && decide (some (H (blockStrWith showN b.block_id b.previous_block_hash b.tx n)) = b.block_hash)
        && decide ((b.block_hash.getD []).take HASH_PATTERN.length = HASH_PATTERN)) := by
    rw [validate_block, blockStr?, hn]
    simp only [Option.map_some']
    rw [hh]
  constructor
  · rw [hv]
    simp only [Except.ok.injEq, Bool.and_eq_true, decide_eq_true_eq, ge_iff_le]
    constructor
    · rintro ⟨⟨⟨⟨h1, h2⟩, h3⟩, h4⟩, h5⟩
      exact ⟨h1, h2, h3, h4.symm, h5⟩
    · rintro ⟨h1, h2, h3, h4, h5⟩
      exact ⟨⟨⟨⟨h1, h2⟩, h3⟩, h4.symm⟩, h5⟩
  · intro hbad
    rw [hv]
    rcases hbad with hbad | hbad
    · have hd : decide (b.block_id = head.block_id + 1) = false := by
        simpa using hbad
      rw [hd]
      simp
    · have hd : decide (some (H (blockStrWith showN b.block_id b.previous_block_hash b.tx n))
          = b.block_hash) = false := by
        simpa using fun h => hbad h.symm
      rw [hd]
      simp

/-- A concrete digest function used by the witnesses: the target pattern
followed by the input's length. -/
def cH : PStr → PStr := fun s => "00ff00".data ++ natToPStr s.length

/-- Concrete nonce printer for witnesses (the fixed float `0.5`). -/
def cShow : Unit → PStr := fun _ => "0.5".data

/-- Concrete nonce parser for witnesses. -/
def cParse : PStr → Option Unit := fun s => if s = "0.5".data then some () else none

/-- A concrete genesis block for witnesses. -/
def cG : Block Unit := Block.init cH cShow 0 [⟨"g".data, "genesis".data⟩] (some "0".data) (some ())

/-- A concrete valid successor of `cG` for witnesses. -/
def cB1 : Block Unit := Block.init cH cShow 1 [] cG.block_hash (some ())

/-- Witness for C1: a concrete digest function, genesis-only ledger and
valid successor block on which `validate_block` returns `True`. -/
theorem C1_witness : validate_block cH cShow [cG] cB1 = .ok true :=
  (C1_validate_iff cH cShow [cG] cB1 () cG rfl (by decide)).1.mpr (by decide)

theorem add_tx_fold_spec (txs : List Transaction) :
    ∀ (pool : List Transaction) (flag : Bool),
      ∃ ns : List Transaction,
        txs.foldl (fun acc t => if t ∈ acc.1 then acc else (acc.1 ++ [t], true))
            (pool, flag)
          = (pool ++ ns, flag || decide (∃ t ∈ txs, t ∉ pool)) ∧
        (∀ u, u ∈ ns ↔ u ∈ txs ∧ u ∉ pool) ∧ ns.Nodup := by
  induction txs with
  | nil =>
    intro pool flag
    refine ⟨[], ?_, ?_, List.nodup_nil⟩
    · simp
    · simp
  | cons t rest ih =>
    intro pool flag
    by_cases ht : t ∈ pool
    · obtain ⟨ns, h1, h2, h3⟩ := ih pool flag
      refine ⟨ns, ?_, ?_, h3⟩
      · simp only [List.foldl_cons, if_pos ht]
        rw [h1]
        have : (∃ u ∈ t :: rest, u ∉ pool) ↔ (∃ u ∈ rest, u ∉ pool) := by
          constructor
          · rintro ⟨u, hu, hnp⟩
            rcases List.mem_cons.mp hu with rfl | hu
            · exact absurd ht hnp
            · exact ⟨u, hu, hnp⟩
          · rintro ⟨u, hu, hnp⟩
            exact ⟨u, List.mem_cons_of_mem t hu, hnp⟩
        simp [this, ht]
      · intro u
        rw [h2 u]
        constructor
        · rintro ⟨hu, hnp⟩
          exact ⟨List.mem_cons_of_mem t hu, hnp⟩
        · rintro ⟨hu, hnp⟩
          rcases List.mem_cons.mp hu with rfl | hu
          · exact absurd ht hnp
          · exact ⟨hu, hnp⟩
    · obtain ⟨ns, h1, h2, h3⟩ := ih (pool ++ [t]) true
      refine ⟨t :: ns, ?_, ?_, ?_⟩
      · simp only [List.foldl_cons, if_neg ht]
        rw [h1, List.append_assoc]
        have hex : ∃ u ∈ t :: rest, u ∉ pool := ⟨t, List.mem_cons_self t rest, ht⟩
        simp [hex, ht]
      · intro u
        rw [List.mem_cons, h2 u]
        constructor
        · rintro (h | ⟨hu, hnp⟩)
          · rw [h]
            exact ⟨List.mem_cons_self t rest, ht⟩
          · refine ⟨List.mem_cons_of_mem t hu, fun hp => hnp ?_⟩
            simp [hp]
        · rintro ⟨hu, hnp⟩
          rcases List.mem_cons.mp hu with rfl | hu
          · exact Or.inl rfl
          · by_cases hut : u = t
            · exact Or.inl hut
            · refine Or.inr ⟨hu, fun hp => ?_⟩
              rcases List.mem_append.mp hp with hp | hp
              · exact hnp hp
              · exact hut (List.mem_singleton.mp hp)
      · refine List.nodup_cons.mpr ⟨fun htns => ?_, h3⟩
        have := (h2 t).mp htns
        exact this.2 (by simp)

/-- C9: `MemPool.add_tx` is idempotent and duplicate-free: a transaction
already present (by id/data equality) is not re-inserted and alone it
yields `False`; the flag is `True` iff at least one transaction of the
argument list is new; the resulting pool is the old pool followed by
exactly the new transactions, without duplicates; and a pool that had no
duplicates still has none afterwards. -/
theorem C9_mempool_add (pool txs : List Transaction) :
    (∀ t, t ∈ pool → add_tx pool [t] = (pool, false)) ∧
    ((add_tx pool txs).2 = true ↔ ∃ u ∈ txs, u ∉ pool) ∧
    (∃ ns, (add_tx pool txs).1 = pool ++ ns ∧ ns.Nodup ∧
      (∀ u, u ∈ ns ↔ u ∈ txs ∧ u ∉ pool)) ∧
    (pool.Nodup → (add_tx pool txs).1.Nodup) := by
  obtain ⟨ns, h1, h2, h3⟩ := add_tx_fold_spec txs pool false
  refine ⟨?_, ?_, ⟨ns, ?_, h3, h2⟩, ?_⟩
  · intro t ht
    obtain ⟨ms, g1, g2, _⟩ := add_tx_fold_spec [t] pool false
    have hms : ms = [] := by
      rcases ms with _ | ⟨m, ms'⟩
      · rfl
      · exfalso
        have := (g2 m).mp (by simp)
        rcases this with ⟨hm, hnp⟩
        rw [List.mem_singleton] at hm
        subst hm
        exact hnp ht
    rw [add_tx, g1, hms]
    have : ¬ ∃ u ∈ [t], u ∉ pool := by
      rintro ⟨u, hu, hnp⟩
      rw [List.mem_singleton] at hu
      subst hu
      exact hnp ht
    simp [this, ht]
  · rw [add_tx, h1]
    simp
  · rw [add_tx, h1]
  · intro hp
    rw [add_tx, h1]
    simp only [List.nodup_append]
    exact ⟨hp, h3, fun u hu hun => ((h2 u).mp hun).2 hu⟩

/-- Witness for C9 on a concrete pool and insertion list. -/
theorem C9_witness :
    add_tx [Transaction.mk "a".data "1".data] [Transaction.mk "a".data "1".data]
      = ([Transaction.mk "a".data "1".data], false) :=
  (C9_mempool_add [Transaction.mk "a".data "1".data] [Transaction.mk "a".data "1".data]).1
    (Transaction.mk "a".data "1".data) (by decide)

theorem idsFrom_append {ν : Type} :
    ∀ (xs : List (Block ν)) (k : Nat) (b : Block ν),
      idsFrom k (xs ++ [b]) = (idsFrom k xs && decide (b.block_id = k + xs.length)) := by
  intro xs
  induction xs with
  | nil => intro k b; simp [idsFrom]
  | cons x xs ih =>
    intro k b
    show (decide (x.block_id = k) && idsFrom (k + 1) (xs ++ [b])) = _
    rw [ih (k + 1) b]
    simp only [idsFrom, List.length_cons, Bool.and_assoc]
    have : k + 1 + xs.length = k + (xs.length + 1) := by omega
    rw [this]

theorem linksOk_append {ν : Type} [DecidableEq ν] :
    ∀ (xs : List (Block ν)) (b head : Block ν), xs.getLast? = some head →
      linksOk (xs ++ [b])
        = (linksOk xs && decide (b.previous_block_hash = head.block_hash)) := by
  intro xs
  induction xs with
  | nil => intro b head h; cases h
  | cons x xs ih =>
    intro b head h
    cases xs with
    | nil =>
      simp only [List.getLast?_singleton, Option.some.injEq] at h
      subst h
      show linksOk [x, b] = _
      simp [linksOk]
    | cons y ys =>
      rw [List.getLast?_cons_cons] at h
      show linksOk (x :: ((y :: ys) ++ [b])) = _
      have hy : (y :: ys) ++ [b] = y :: (ys ++ [b]) := rfl
      rw [hy]
      show (decide (y.previous_block_hash = x.block_hash) && linksOk (y :: (ys ++ [b]))) = _
      rw [← hy, ih b head h]
      show _ = ((decide (y.previous_block_hash = x.block_hash) && linksOk (y :: ys)) && _)
      rw [Bool.and_assoc]

theorem idsFrom_getLast {ν : Type} :
    ∀ (chain : List (Block ν)) (k : Nat) (head : Block ν),
      idsFrom k chain = true → chain.getLast? = some head →
      head.block_id + 1 = k + chain.length := by
  intro chain
  induction chain with
  | nil => intro k head _ h; cases h
  | cons x xs ih =>
    intro k head hids hlast
    simp only [idsFrom, Bool.and_eq_true, decide_eq_true_eq] at hids
    cases xs with
    | nil =>
      simp only [List.getLast?_singleton, Option.some.injEq] at hlast
      subst hlast
      simp [hids.1]
    | cons y ys =>
      rw [List.getLast?_cons_cons] at hlast
      have := ih (k + 1) head hids.2 hlast
      simp only [List.length_cons] at this ⊢
      omega

/-- The bad block of the C6 counterexample: right id, wrong previous
hash. -/
def cBad : Block Unit := ⟨1, some "WRONG".data, [], some (), some "X".data⟩

/-- C6 counterexample: the genesis-only ledger satisfies the structural
invariants, `add_block` accepts `cBad` (its id matches the length), and
the resulting ledger violates the hash-linkage invariant — so append
does *not* preserve the invariants for arbitrary blocks. -/
theorem C6_counterexample :
    chainInv [cG] = true ∧ add_block [cG] cBad = [cG, cBad] ∧
      chainInv [cG, cBad] = false := by
  refine ⟨by decide, by decide, by decide⟩

/-- C6 (amended): initialization establishes the structural invariants;
`add_block` always preserves the id-indexing invariant and never touches
the genesis at index 0; it preserves the linkage invariant provided the
appended block's `previous_block_hash` equals the head's `block_hash`;
`replace_blockchain` preserves the invariants provided the candidate
chain itself satisfies them, and preserves the genesis provided the
candidate shares it. -/
theorem C6_invariants {ν : Type} [DecidableEq ν] (H : PStr → PStr)
    (showN : ν → PStr) (gn : ν) (chain cand : List (Block ν)) (b : Block ν) :
    (chainInv (initLedger H showN gn) = true) ∧
    (idsFrom 0 chain = true → idsFrom 0 (add_block chain b) = true) ∧
    (chainInv chain = true →
      (∀ head, chain.getLast? = some head →
        b.previous_block_hash = head.block_hash) →
      chainInv (add_block chain b) = true) ∧
    (chain ≠ [] → (add_block chain b).head? = chain.head?) ∧
    (chainInv chain = true → chainInv cand = true →
      chainInv (replace_blockchain chain cand) = true) ∧
    (cand.head? = chain.head? →
      (replace_blockchain chain cand).head? = chain.head?) := by
  refine ⟨?_, ?_, ?_, ?_, ?_, ?_⟩
  · simp [initLedger, chainInv, idsFrom, linksOk, Block.init]
  · intro hids
    rw [add_block]
    by_cases hid : b.block_id = chain.length
    · rw [if_pos hid, idsFrom_append, hids]
      simp [hid]
    · rw [if_neg hid]
      exact hids
  · intro hinv hlink
    rw [chainInv, Bool.and_eq_true] at hinv
    rw [add_block]
    by_cases hid : b.block_id = chain.length
    · rw [if_pos hid, chainInv, Bool.and_eq_true]
      constructor
      · rw [idsFrom_append, hinv.1]
        simp [hid]
      · cases hlast : chain.getLast? with
        | none =>
          rcases List.getLast?_eq_none_iff.mp hlast with rfl
          rfl
        | some head =>
          rw [linksOk_append chain b head hlast, hinv.2]
          simp [hlink head hlast]
    · rw [if_neg hid, chainInv, Bool.and_eq_true]
      exact hinv
  · intro hne
    rw [add_block]
    by_cases hid : b.block_id = chain.length
    · rw [if_pos hid]
      cases chain with
      | nil => cases hne rfl
      | cons x xs => rfl
    · rw [if_neg hid]
  · intro h1 h2
    rw [replace_blockchain]
    by_cases hlen : cand.length > chain.length
    · rw [if_pos hlen]; exact h2
    · rw [if_neg hlen]; exact h1
  · intro hh
    rw [replace_blockchain]
    by_cases hlen : cand.length > chain.length
    · rw [if_pos hlen]; exact hh
    · rw [if_neg hlen]

/-- Witness for C6 (amended): appending the honest successor `cB1` to the
genesis-only concrete ledger preserves both invariants. -/
theorem C6_witness : chainInv (add_block [cG] cB1) = true :=
  (C6_invariants cH cShow () [cG] [] cB1).2.2.1 (by decide)
    (fun head hh => by
      have : cG = head := by
        simpa using hh
      rw [← this]
      decide)

/-- C7: against a ledger satisfying the id-indexing invariant, any nonce
whose digest of the mining candidate (id = ledger length, previous hash =
head's hash, any transaction list) starts with `HASH_PATTERN` yields a
mined block that passes `validate_block` on that same unchanged ledger. -/
theorem C7_mined_block_validates {ν : Type} [DecidableEq ν] (H : PStr → PStr)
    (showN : ν → PStr) (chain : List (Block ν)) (txs : List Transaction)
    (n : ν) (head : Block ν)
    (hids : idsFrom 0 chain = true)
    (hlast : chain.getLast? = some head)
    (hpat : (H (blockStrWith showN chain.length head.block_hash txs n)).take
        HASH_PATTERN.length = HASH_PATTERN) :
    ∀ mb, minedBlock H showN chain txs n = some mb →
      validate_block H showN chain mb = .ok true := by
  intro mb hmb
  rw [minedBlock, hlast, Option.map_some', Option.some.injEq] at hmb
  subst hmb
  have hid : head.block_id + 1 = chain.length := by
    have := idsFrom_getLast chain 0 head hids hlast
    omega
  have hlen : 1 ≤ chain.length := by
    cases chain with
    | nil => cases hlast
    | cons x xs => simp
  rw [validate_block]
  show (match
      some (blockStrWith showN chain.length head.block_hash txs n)
    with
    | none => Except.error PyExc.noNonce
    | some s => _) = Except.ok true
  rw [show (some (blockStrWith showN chain.length head.block_hash txs n)
      : Option PStr) = some _ from rfl]
  simp only [hlast]
  simp [hlen, hid, hpat]

/-- Witness for C7: the concrete mined successor of the genesis-only
concrete ledger validates. -/
theorem C7_witness :
    validate_block cH cShow [cG]
      ⟨1, cG.block_hash, [], some (),
        some (cH (blockStrWith cShow 1 cG.block_hash [] ()))⟩ = .ok true :=
  C7_mined_block_validates cH cShow [cG] [] () cG (by decide) (by decide) (by decide)
    ⟨1, cG.block_hash, [], some (),
      some (cH (blockStrWith cShow 1 cG.block_hash [] ()))⟩ (by decide)

/-- A concrete local genesis whose stored hash is `"G"`, for the C2
counterexample. -/
def cGsync : Block Unit := ⟨0, some "0".data, [], some (), some "G".data⟩

/-- C2 counterexample: with local ledger `[cGsync]` (genesis hash `"G"`,
length 1), peer `a1` reports a 10-block chain with foreign genesis `"X"`
and peer `a2` reports a 5-block chain with the matching genesis `"G"`.
The selection loop picks `a1` — not the longest *genesis-matching* peer
`a2` — and the round is a no-op even though `a2` reported a matching
chain strictly longer than the local one (under the claim, `a2` would be
the replacement candidate and the ledger would be replaced). -/
theorem C2_counterexample :
    syncSelect [("a1".data, "10:H1:X".data), ("a2".data, "5:H2:G".data)]
      = .ok (10, ["10".data, "H1".data, "X".data], some "a1".data) ∧
    (some "G".data = cGsync.block_hash ∧ strToNat? "5".data = some 5 ∧
      ([cGsync] : List (Block Unit)).length < 5) ∧
    sync_ledger cH cShow cParse
      [("a1".data, "10:H1:X".data), ("a2".data, "5:H2:G".data)]
      (fun _ => []) [cGsync] = .ok [cGsync] := by
  refine ⟨by decide, ⟨by decide, by decide, by decide⟩, by decide⟩

theorem syncSelect_go (responses : List (PStr × PStr)) :
    ∀ (acc res : Nat × List PStr × Option PStr),
      responses.foldlM syncStep acc = .ok res →
      acc.1 ≤ res.1 ∧
      (∀ p ∈ responses, ∀ len, p.2 ≠ [] →
        (pySplit [':'] p.2).headD [] ≠ sCONNERR →
        strToNat? ((pySplit [':'] p.2).headD []) = some len → len ≤ res.1) := by
  induction responses with
  | nil =>
    intro acc res h
    simp only [List.foldlM_nil] at h
    cases h
    exact ⟨Nat.le_refl _, by simp⟩
  | cons p ps ih =>
    intro acc res h
    rw [List.foldlM_cons] at h
    cases hstep : syncStep acc p with
    | error e => rw [hstep] at h; cases h
    | ok acc' =>
      rw [hstep] at h
      obtain ⟨hmono, hrest⟩ := ih acc' res h
      have hstep_mono : acc.1 ≤ acc'.1 := by
        rw [syncStep] at hstep
        by_cases h2 : p.2 = []
        · rw [if_pos h2] at hstep; cases hstep; exact Nat.le_refl _
        · rw [if_neg h2] at hstep
          by_cases h3 : (pySplit [':'] p.2).headD [] = sCONNERR
          · rw [if_pos h3] at hstep; cases hstep; exact Nat.le_refl _
          · rw [if_neg h3] at hstep
            cases hp : strToNat? ((pySplit [':'] p.2).headD []) with
            | none =>
              rw [hp] at hstep
              exact absurd hstep (by simp)
            | some l =>
              rw [hp] at hstep
              replace hstep : (if l > acc.1
                    then Except.ok (l, pySplit [':'] p.2, some p.1)
                    else Except.ok acc) = Except.ok acc' := hstep
              by_cases hgt : l > acc.1
              · rw [if_pos hgt] at hstep; cases hstep; exact Nat.le_of_lt hgt
              · rw [if_neg hgt] at hstep; cases hstep; exact Nat.le_refl _
      refine ⟨Nat.le_trans hstep_mono hmono, ?_⟩
      intro q hq len hne hcerr hparse
      rcases List.mem_cons.mp hq with rfl | hq
      · rw [syncStep, if_neg hne, if_neg hcerr, hparse] at hstep
        replace hstep : (if len > acc.1
              then Except.ok (len, pySplit [':'] q.2, some q.1)
              else Except.ok acc) = Except.ok acc' := hstep
        by_cases hgt : len > acc.1
        · rw [if_pos hgt] at hstep; cases hstep; exact hmono
        · rw [if_neg hgt] at hstep
          cases hstep
          exact Nat.le_trans (Nat.le_of_not_lt hgt) (Nat.le_trans hstep_mono hmono)
      · exact hrest q hq len hne hcerr hparse

theorem sync_ledger_eq {ν : Type} [DecidableEq ν] (H : PStr → PStr)
    (showN : ν → PStr) (parseN : PStr → Option ν) (sendLedger : PStr → PStr)
    (responses : List (PStr × PStr)) (chain : List (Block ν))
    (sel : Nat × List PStr × Option PStr)
    (hsel : syncSelect responses = .ok sel) :
    sync_ledger H showN parseN responses sendLedger chain
      = (match chain.head? with
        | none => .error .indexError
        | some g =>
          if chain.length < sel.1 then
            match sel.2.1.get? 2 with
            | none => .error .indexError
            | some repGen =>
              if some repGen = g.block_hash then
                match sel.2.2 with
                | none => .error .indexError
                | some a =>
                  match ledger_from_string H showN parseN (sendLedger a) with
                  | none => .error .valueError
                  | some newChain => .ok (replace_blockchain chain newChain)
              else .ok chain
          else .ok chain) := by
  rw [sync_ledger, hsel]
  rfl

/-- C2 (amended): the selection loop of `sync_ledger` picks the peer
reporting the strictly longest chain among *all* validly-responding
peers — the reported genesis hash plays no role in the selection — and
the ledger is then replaced only if that single winner's reported length
exceeds the local length and its reported genesis hash equals the local
one.  Consequently: every validly reported length is at most the
winner's; the round is a no-op whenever the winner's reported genesis
hash differs from the local genesis hash (even if some other
genesis-matching peer reported a chain longer than the local one); and
the round is a no-op whenever the winner's length does not exceed the
local length. -/
theorem C2_sync_selection {ν : Type} [DecidableEq ν] (H : PStr → PStr)
    (showN : ν → PStr) (parseN : PStr → Option ν) (sendLedger : PStr → PStr)
    (responses : List (PStr × PStr)) (chain : List (Block ν)) (len : Nat)
    (parts : List PStr) (addr : Option PStr)
    (hsel : syncSelect responses = .ok (len, parts, addr)) :
    (∀ p ∈ responses, ∀ l, p.2 ≠ [] →
      (pySplit [':'] p.2).headD [] ≠ sCONNERR →
      strToNat? ((pySplit [':'] p.2).headD []) = some l → l ≤ len) ∧
    (∀ g repGen, chain.head? = some g → parts.get? 2 = some repGen →
      some repGen ≠ g.block_hash →
      sync_ledger H showN parseN responses sendLedger chain = .ok chain) ∧
    (∀ g, chain.head? = some g → len ≤ chain.length →
      sync_ledger H showN parseN responses sendLedger chain = .ok chain) := by
  have hred := sync_ledger_eq H showN parseN sendLedger responses chain
    (len, parts, addr) hsel
  refine ⟨?_, ?_, ?_⟩
  · rw [syncSelect] at hsel
    exact (syncSelect_go responses (0, [['0']], none) (len, parts, addr) hsel).2
  · intro g repGen hg hrep hne
    rw [hred]
    simp only [hg]
    by_cases hlen : chain.length < len
    · rw [if_pos hlen]
      simp only [hrep]
      rw [if_neg hne]
    · rw [if_neg hlen]
  · intro g hg hlen
    rw [hred]
    simp only [hg]
    rw [if_neg (by omega)]

/-- Witness for C2 (amended) at the counterexample round: the no-op
conclusion follows from the amended theorem at the winner `a1` whose
reported genesis `"X"` differs from the local `"G"`. -/
theorem C2_witness :
    sync_ledger cH cShow cParse
      [("a1".data, "10:H1:X".data), ("a2".data, "5:H2:G".data)]
      (fun _ => []) [cGsync] = .ok [cGsync] :=
  (C2_sync_selection cH cShow cParse (fun _ => [])
      [("a1".data, "10:H1:X".data), ("a2".data, "5:H2:G".data)]
      [cGsync] 10 ["10".data, "H1".data, "X".data] (some "a1".data)
      (by decide)).2.1 cGsync "X".data (by decide) (by decide) (by decide)

/-! ## Round-trip machinery for C3 -/

theorem hasSub_single {c : Char} : ∀ {p : PStr}, hasSub [c] p = true ↔ c ∈ p := by
  intro p
  induction p with
  | nil => simp [hasSub]
  | cons d ds ih =>
    simp only [hasSub, Bool.or_eq_true, List.isPrefixOf_iff_prefix, List.mem_cons]
    constructor
    · rintro (h | h)
      · left
        have := List.prefix_iff_eq_take.mp h
        simp only [List.length_singleton, List.take_succ_cons, List.take_zero] at this
        exact (List.cons.injEq _ _ _ _ ▸ this).1
    
      · exact Or.inr (ih.mp h)
    · rintro (rfl | h)
      · left
        exact ⟨ds, rfl⟩
      · exact Or.inr (ih.mpr h)

theorem prefix_head_mem {sep : PStr} {c : Char} {cs : PStr}
    (hsep : sep ≠ []) (h : sep <+: (c :: cs)) : c ∈ sep := by
  cases sep with
  | nil => cases hsep rfl
  | cons s ss =>
    have := List.prefix_iff_eq_take.mp h
    rw [List.length_cons, List.take_succ_cons] at this
    have hc : s = c := (List.cons.injEq _ _ _ _ ▸ this).1
    rw [hc]
    exact List.mem_cons_self _ _

theorem hasSub_append_cases {sep : PStr} :
    ∀ {a b : PStr}, hasSub sep (a ++ b) = true →
      hasSub sep a = true ∨ hasSub sep b = true ∨
        ∃ c, b.head? = some c ∧ c ∈ sep := by
  intro a
  induction a with
  | nil => intro b h; exact Or.inr (Or.inl h)
  | cons x xs ih =>
    intro b h
    rw [List.cons_append, hasSub, Bool.or_eq_true] at h
    rcases h with h | h
    · rw [List.isPrefixOf_iff_prefix] at h
      by_cases hlen : sep.length ≤ (x :: xs).length
      · left
        have he := List.prefix_iff_eq_take.mp h
        rw [show x :: (xs ++ b) = (x :: xs) ++ b from rfl,
          List.take_append_eq_append_take, Nat.sub_eq_zero_of_le hlen,
          List.take_zero, List.append_nil] at he
        have : sep <+: (x :: xs) := by
          rw [he]; exact List.take_prefix _ _
        exact hasSub_of_prefix_drop (i := 0) this
      · push_neg at hlen
        have he := List.prefix_iff_eq_take.mp h
        rw [show x :: (xs ++ b) = (x :: xs) ++ b from rfl,
          List.take_append_eq_append_take,
          List.take_of_length_le (Nat.le_of_lt hlen)] at he
        cases hb : b with
        | nil =>
          exfalso
          subst hb
          rw [List.take_nil, List.append_nil] at he
          have := congrArg List.length he
          omega
        | cons cb bs =>
          subst hb
          refine Or.inr (Or.inr ⟨cb, rfl, ?_⟩)
          have hk : 0 < sep.length - (x :: xs).length := by omega
          obtain ⟨k, hk2⟩ : ∃ k, sep.length - (x :: xs).length = k + 1 :=
            ⟨sep.length - (x :: xs).length - 1, by omega⟩
          rw [hk2, List.take_succ_cons] at he
          rw [he]
          exact List.mem_append_right _ (List.mem_cons_self _ _)
    · rcases ih h with h | h | h
      · left
        rw [hasSub]
        exact Bool.or_eq_true _ _ |>.mpr (Or.inr h)
      · exact Or.inr (Or.inl h)
      · exact Or.inr (Or.inr h)

theorem icalate_head (sep : PStr) :
    ∀ (ls : List PStr) (c : PStr),
      icalate sep (c :: ls) = c ++ (ls.map fun s => sep ++ s).flatten := by
  intro ls
  induction ls with
  | nil => intro c; simp [icalate]
  | cons l ls' ih =>
    intro c
    show c ++ sep ++ icalate sep (l :: ls') = _
    rw [ih l]
    simp [List.append_assoc]

theorem hasSub_icalate_single {sep : PStr} (hsep : sep ≠ []) {ch : Char}
    (hch : ch ∉ sep) :
    ∀ (ps : List PStr), (∀ p ∈ ps, hasSub sep p = false) →
      hasSub sep (icalate [ch] ps) = false := by
  intro ps
  induction ps with
  | nil =>
    intro _
    show hasSub sep [] = false
    rw [hasSub]
    simpa using hsep
  | cons p ps' ih =>
    intro hclean
    cases ps' with
    | nil => exact hclean p (by simp)
    | cons q qs =>
      show hasSub sep (p ++ [ch] ++ icalate [ch] (q :: qs)) = false
      rw [List.append_assoc]
      by_contra hcon
      have htrue : hasSub sep (p ++ ([ch] ++ icalate [ch] (q :: qs))) = true := by
        revert hcon
        cases hasSub sep (p ++ ([ch] ++ icalate [ch] (q :: qs))) <;> simp
      rcases hasSub_append_cases htrue with h | h | h
      · rw [hclean p (by simp)] at h
        cases h
      · rw [show [ch] ++ icalate [ch] (q :: qs) = ch :: icalate [ch] (q :: qs) from rfl,
          hasSub, Bool.or_eq_true] at h
        rcases h with h | h
        · rw [List.isPrefixOf_iff_prefix] at h
          exact hch (prefix_head_mem hsep h)
        · rw [ih (fun r hr => hclean r (by simp [hr]))] at h
          cases h
      · obtain ⟨c, hc1, hc2⟩ := h
        simp only [List.cons_append, List.head?_cons, Option.some.injEq] at hc1
        subst hc1
        exact hch hc2

theorem hasSub_comma_line {sep : PStr} (hsep : sep ≠ [])
    (h1 : (',' : Char) ∉ sep) (h2 : (' ' : Char) ∉ sep) {a b : PStr}
    (ha : hasSub sep a = false) (hb : hasSub sep b = false) :
    hasSub sep (a ++ sComma ++ b) = false := by
  rw [List.append_assoc]
  by_contra hcon
  have htrue : hasSub sep (a ++ (sComma ++ b)) = true := by
    revert hcon
    cases hasSub sep (a ++ (sComma ++ b)) <;> simp
  rcases hasSub_append_cases htrue with h | h | h
  · rw [ha] at h; cases h
  · rw [show sComma ++ b = ',' :: (' ' :: b) from rfl, hasSub, Bool.or_eq_true] at h
    rcases h with h | h
    · rw [List.isPrefixOf_iff_prefix] at h
      exact h1 (prefix_head_mem hsep h)
    · rw [hasSub, Bool.or_eq_true] at h
      rcases h with h | h
      · rw [List.isPrefixOf_iff_prefix] at h
        exact h2 (prefix_head_mem hsep h)
      · rw [hb] at h; cases h
  · obtain ⟨c, hc1, hc2⟩ := h
    rw [show sComma ++ b = ',' :: (' ' :: b) from rfl, List.head?_cons,
      Option.some.injEq] at hc1
    subst hc1
    exact h1 hc2

theorem borderFree_sBLOCK : borderFree sBLOCK := by
  intro k hk h0
  have hlen : sBLOCK.length = 6 := rfl
  rw [hlen] at hk
  interval_cases k <;> decide

theorem borderFree_sComma : borderFree sComma := by
  intro k hk h0
  have hlen : sComma.length = 2 := rfl
  rw [hlen] at hk
  interval_cases k <;> decide

theorem borderFree_sNL : borderFree sNL := by
  intro k hk h0
  have hlen : sNL.length = 1 := rfl
  rw [hlen] at hk
  omega

theorem hasSub_false_of_not_mem {sep p : PStr} {c : Char} (hc : c ∈ sep)
    (h : c ∉ p) : hasSub sep p = false := by
  cases hh : hasSub sep p with
  | false => rfl
  | true => exact absurd (mem_of_hasSub hh hc) h

/-- A string free of newlines and of the `"BLOCK:"` token — the
separator-freedom the round-trip law needs of the nonce string and the
previous-hash field. -/
def cleanNB (p : PStr) : Bool := !hasSub sNL p && !hasSub sBLOCK p

/-- A transaction field must additionally be free of the `", "`
separator. -/
def cleanTxField (p : PStr) : Bool := cleanNB p && !hasSub sComma p

/-- A block is round-trip valid when it carries a nonce whose string
form is separator-free and re-parses to the same nonce, a present
separator-free previous-hash string, separator-free transaction fields,
and a stored `block_hash` equal to the digest of its canonical form. -/
def validBlockB {ν : Type} [DecidableEq ν] (H : PStr → PStr) (showN : ν → PStr)
    (parseN : PStr → Option ν) (b : Block ν) : Bool :=
  match b.nonce, b.previous_block_hash with
  | some n, some prev =>
    cleanNB (showN n) && decide (parseN (showN n) = some n) &&
    cleanNB prev &&
    b.tx.all (fun t => cleanTxField t.tx_id && cleanTxField t.tx_data) &&
    decide (b.block_hash = some (H (blockStrWith showN b.block_id (some prev) b.tx n)))
  | _, _ => false

/-- A ledger is round-trip valid when each of its blocks is. -/
def validLedgerB {ν : Type} [DecidableEq ν] (H : PStr → PStr) (showN : ν → PStr)
    (parseN : PStr → Option ν) (chain : List (Block ν)) : Bool :=
  chain.all (validBlockB H showN parseN)

theorem natToPStr_cleanNB (n : Nat) : cleanNB (natToPStr n) = true := by
  rw [cleanNB]
  have h1 : hasSub sNL (natToPStr n) = false := by
    refine hasSub_false_of_not_mem (c := Char.ofNat 10) (by decide) ?_
    intro hmem
    have := natToPStr_isDigit _ hmem
    exact absurd this (by decide)
  have h2 : hasSub sBLOCK (natToPStr n) = false := by
    refine hasSub_false_of_not_mem (c := 'B') (by decide) ?_
    intro hmem
    have := natToPStr_isDigit _ hmem
    exact absurd this (by decide)
  rw [h1, h2]
  rfl

theorem tx_roundtrip (t : Transaction)
    (hid : hasSub sComma t.tx_id = false)
    (hdata : hasSub sComma t.tx_data = false) :
    transaction_from_string (txStr t) = some t := by
  have hform : txStr t = icalate sComma [t.tx_id, t.tx_data] := rfl
  have hsplit : pySplit sComma (txStr t) = [t.tx_id, t.tx_data] := by
    rw [hform]
    exact pySplit_icalate sComma (by decide) borderFree_sComma t.tx_id [t.tx_data]
      (by
        intro p hp
        rcases List.mem_cons.mp hp with rfl | hp
        · exact hid
        · rcases List.mem_singleton.mp hp with rfl
          exact hdata)
  rw [transaction_from_string, hsplit]

theorem mapM_tx_roundtrip (txs : List Transaction)
    (h : ∀ t ∈ txs, cleanTxField t.tx_id = true ∧ cleanTxField t.tx_data = true) :
    (txs.map txStr).mapM transaction_from_string = some txs := by
  induction txs with
  | nil => rfl
  | cons t rest ih =>
    have ht := h t (by simp)
    have hid : hasSub sComma t.tx_id = false := by
      have := ht.1
      rw [cleanTxField, Bool.and_eq_true, Bool.not_eq_true'] at this
      exact this.2
    have hdata : hasSub sComma t.tx_data = false := by
      have := ht.2
      rw [cleanTxField, Bool.and_eq_true, Bool.not_eq_true'] at this
      exact this.2
    rw [List.map_cons, List.mapM_cons, tx_roundtrip t hid hdata,
      ih (fun u hu => h u (by simp [hu]))]
    rfl

theorem block_roundtrip {ν : Type} [DecidableEq ν] (H : PStr → PStr)
    (showN : ν → PStr) (parseN : PStr → Option ν) (b : Block ν)
    (hb : validBlockB H showN parseN b = true) :
    ∃ s, blockStr? showN b = some s ∧ hasSub sBLOCK s = false ∧
      block_from_string H showN parseN s = some b := by
  rw [validBlockB] at hb
  cases hnon : b.nonce with
  | none => rw [hnon] at hb; cases hb
  | some n =>
  cases hprev : b.previous_block_hash with
  | none => rw [hnon, hprev] at hb; cases hb
  | some prev =>
  rw [hnon, hprev] at hb
  simp only [Bool.and_eq_true, decide_eq_true_eq, List.all_eq_true] at hb
  obtain ⟨⟨⟨⟨hnonS, hparse⟩, hprevS⟩, htx⟩, hhash⟩ := hb
  rw [cleanNB, Bool.and_eq_true, Bool.not_eq_true', Bool.not_eq_true'] at hnonS hprevS
  have htx' : ∀ t ∈ b.tx, cleanTxField t.tx_id = true ∧ cleanTxField t.tx_data = true := htx
  have hNL : sNL = ['\x0a'] := rfl
  refine ⟨blockStrWith showN b.block_id (some prev) b.tx n, ?_, ?_, ?_⟩
  · rw [blockStr?, hnon, hprev, Option.map_some']
  · rw [blockStrWith]
    have hform : natToPStr b.block_id ++ sNL ++ showN n ++ sNL ++ pyStrOpt (some prev)
        ++ (b.tx.map fun t => sNL ++ txStr t).flatten
        = icalate sNL (natToPStr b.block_id :: showN n :: pyStrOpt (some prev)
            :: b.tx.map txStr) := by
      rw [icalate_head]
      simp only [List.map_cons, List.flatten_cons, List.map_map, List.append_assoc]
      rfl
    rw [hform, hNL]
    refine hasSub_icalate_single (by decide) (by decide) _ ?_
    intro p hp
    rcases List.mem_cons.mp hp with rfl | hp
    · have := natToPStr_cleanNB b.block_id
      rw [cleanNB, Bool.and_eq_true, Bool.not_eq_true', Bool.not_eq_true'] at this
      exact this.2
    rcases List.mem_cons.mp hp with rfl | hp
    · exact hnonS.2
    rcases List.mem_cons.mp hp with rfl | hp
    · exact hprevS.2
    obtain ⟨t, ht, rfl⟩ := List.mem_map.mp hp
    obtain ⟨htid, htdata⟩ := htx' t ht
    rw [cleanTxField, Bool.and_eq_true, Bool.not_eq_true', cleanNB,
      Bool.and_eq_true, Bool.not_eq_true', Bool.not_eq_true'] at htid htdata
    exact hasSub_comma_line (by decide) (by decide) (by decide)
      htid.1.2 htdata.1.2
  · have hform : blockStrWith showN b.block_id (some prev) b.tx n
        = icalate sNL (natToPStr b.block_id :: showN n :: prev :: b.tx.map txStr) := by
      rw [blockStrWith, icalate_head]
      simp only [List.map_cons, List.flatten_cons, List.map_map, List.append_assoc, pyStrOpt]
      rfl
    have hsplit : pySplit sNL (blockStrWith showN b.block_id (some prev) b.tx n)
        = natToPStr b.block_id :: showN n :: prev :: b.tx.map txStr := by
      rw [hform, hNL]
      refine pySplit_icalate _ (by decide) (by
        rw [← hNL]
        exact borderFree_sNL) _ _ ?_
      intro p hp
      rcases List.mem_cons.mp hp with rfl | hp
      · have := natToPStr_cleanNB b.block_id
        rw [cleanNB, Bool.and_eq_true, Bool.not_eq_true', Bool.not_eq_true'] at this
        exact this.1
      rcases List.mem_cons.mp hp with rfl | hp
      · exact hnonS.1
      rcases List.mem_cons.mp hp with rfl | hp
      · exact hprevS.1
      obtain ⟨t, ht, rfl⟩ := List.mem_map.mp hp
      obtain ⟨htid, htdata⟩ := htx' t ht
      rw [cleanTxField, Bool.and_eq_true, Bool.not_eq_true', cleanNB,
        Bool.and_eq_true, Bool.not_eq_true', Bool.not_eq_true'] at htid htdata
      rw [← hNL]
      exact hasSub_comma_line (by decide) (by decide) (by decide)
        htid.1.1 htdata.1.1
    rw [block_from_string, hsplit]
    simp only [mapM_tx_roundtrip b.tx htx', strToNat_natToPStr, hparse, Option.some_bind]
    show some (Block.init H showN b.block_id b.tx (some prev) (some n)) = some b
    rw [Block.init]
    cases b with
    | mk id bprev btx bnon bhash =>
      simp only at hnon hprev hhash ⊢
      rw [hnon, hprev, hhash]
      rfl

theorem chain_roundtrip_aux {ν : Type} [DecidableEq ν] (H : PStr → PStr)
    (showN : ν → PStr) (parseN : PStr → Option ν) :
    ∀ chain : List (Block ν), (∀ b ∈ chain, validBlockB H showN parseN b = true) →
      ∃ ss, chain.mapM (blockStr? showN) = some ss ∧
        (∀ s ∈ ss, hasSub sBLOCK s = false) ∧
        ss.mapM (block_from_string H showN parseN) = some chain := by
  intro chain
  induction chain with
  | nil => intro _; exact ⟨[], rfl, by simp, rfl⟩
  | cons b rest ih =>
    intro h
    obtain ⟨s, hs1, hs2, hs3⟩ := block_roundtrip H showN parseN b (h b (by simp))
    obtain ⟨ss, hss1, hss2, hss3⟩ := ih (fun u hu => h u (by simp [hu]))
    refine ⟨s :: ss, ?_, ?_, ?_⟩
    · rw [List.mapM_cons]
      simp only [hs1, hss1, Option.some_bind]
      rfl
    · intro u hu
      rcases List.mem_cons.mp hu with rfl | hu
      · exact hs2
      · exact hss2 u hu
    · rw [List.mapM_cons]
      simp only [hs3, hss3, Option.some_bind]
      rfl

/-- C3: for every round-trip-valid ledger (each block carries a nonce
whose string form re-parses, fields are free of the reserved separator
tokens, and the stored hash is the digest of the canonical form),
deserializing the serialized ledger yields exactly the original chain,
block by block and field by field. -/
theorem C3_serialization_roundtrip {ν : Type} [DecidableEq ν] (H : PStr → PStr)
    (showN : ν → PStr) (parseN : PStr → Option ν) (chain : List (Block ν))
    (hv : validLedgerB H showN parseN chain = true) :
    (ledgerStr? showN chain).bind (ledger_from_string H showN parseN)
      = some chain := by
  have hball : ∀ b ∈ chain, validBlockB H showN parseN b = true := by
    rw [validLedgerB, List.all_eq_true] at hv
    exact hv
  obtain ⟨ss, hss, hclean, hparse⟩ := chain_roundtrip_aux H showN parseN chain hball
  have hstr : ledgerStr? showN chain
      = some (sLEDGER ++ (ss.map fun s => sBLOCK ++ s).flatten ++ sBLOCK ++ sLEDGER) := by
    rw [ledgerStr?, hss, Option.map_some']
  have hical : sLEDGER ++ (ss.map fun s => sBLOCK ++ s).flatten ++ sBLOCK ++ sLEDGER
      = icalate sBLOCK (sLEDGER :: (ss ++ [sLEDGER])) := by
    rw [icalate_head, List.map_append, List.flatten_append]
    simp [List.append_assoc]
  have hsplit : pySplit sBLOCK (icalate sBLOCK (sLEDGER :: (ss ++ [sLEDGER])))
      = sLEDGER :: (ss ++ [sLEDGER]) := by
    refine pySplit_icalate _ (by decide) borderFree_sBLOCK _ _ ?_
    intro p hp
    rcases List.mem_cons.mp hp with rfl | hp
    · decide
    rcases List.mem_append.mp hp with hp | hp
    · exact hclean p hp
    · rcases List.mem_singleton.mp hp with rfl
      decide
  rw [hstr]
  show ledger_from_string H showN parseN
    (sLEDGER ++ (ss.map fun s => sBLOCK ++ s).flatten ++ sBLOCK ++ sLEDGER) = some chain
  rw [hical, ledger_from_string]
  simp only [hsplit]
  have hlast : (sLEDGER :: (ss ++ [sLEDGER])).getLast? = some sLEDGER := by
    rw [show sLEDGER :: (ss ++ [sLEDGER]) = (sLEDGER :: ss) ++ [sLEDGER] from by simp,
      List.getLast?_concat]
  rw [if_pos ⟨rfl, hlast⟩]
  show ((ss ++ [sLEDGER]).dropLast).mapM (block_from_string H showN parseN) = some chain
  rw [List.dropLast_concat]
  exact hparse

/-- Witness for C3: the two-block concrete ledger `[cG, cB1]` is
round-trip valid and survives serialize-then-deserialize unchanged. -/
theorem C3_witness :
    (ledgerStr? cShow [cG, cB1]).bind (ledger_from_string cH cShow cParse)
      = some [cG, cB1] :=
  C3_serialization_roundtrip cH cShow cParse [cG, cB1] (by decide)
